import Mathlib

/-!
Verification of the minimization-orchestration layer of the iminuit
source binding (`src/iminuit/_libiminuit.pyx`) against its
natural-language specification.

All floating-point quantities of the source are embedded as exact
rationals (`ℚ`); the external Minuit2 engine objects consumed by the
binding (`MnUserParameterState`, `MnMinos`, `MnContours`, `MnHesse`)
are not part of the repository and are modelled from the spec where a
claim depends on them, as flagged by their doc comments.
-/

namespace IminuitSpec

/-- An extended value as used for parameter limits: the Python code
normalises a limit bound to a float that may be `-inf` or `inf`. -/
inductive ELim where
  | negInf : ELim
  | fin (q : ℚ) : ELim
  | posInf : ELim
deriving DecidableEq

/-- Order on extended limit bounds, mirroring Python float comparison
with infinities (`-inf <= x <= inf` for every x). -/
def ELim.le : ELim → ELim → Bool
  | .negInf, _ => true
  | _, .posInf => true
  | .fin a, .fin b => decide (a ≤ b)
  | _, _ => false

/-- Rendering of a limit bound inside an error message, mirroring how
Python would substitute the value into the format string. -/
def ELim.show : ELim → String
  | .negInf => "-inf"
  | .posInf => "inf"
  | .fin q => toString q

/-- A single user-supplied limit bound: Python `None`, an infinite
float, or a finite number. -/
inductive BoundIn where
  | noneB : BoundIn
  | ninf : BoundIn
  | pinf : BoundIn
  | val (q : ℚ) : BoundIn
deriving DecidableEq

/-- `lb = -inf if lb is None else lb` from `initialParameterState`:
the lower bound with `None` replaced by `-inf`. -/
def resolveLo : BoundIn → ELim
  | .noneB => .negInf
  | .ninf => .negInf
  | .pinf => .posInf
  | .val q => .fin q

/-- `ub = inf if ub is None else ub` from `initialParameterState`:
the upper bound with `None` replaced by `inf`. -/
def resolveHi : BoundIn → ELim
  | .noneB => .posInf
  | .ninf => .negInf
  | .pinf => .posInf
  | .val q => .fin q

/-- Modelled from the spec: one entry of the external engine object
`MnUserParameterState` (`MinuitParameter`), which is not part of this
repository.  It carries the externally visible value and error, the
limit configuration and the fixed flag of one named parameter
(spec section 3, "Parameter"). -/
structure MnParam where
  name : String
  value : ℚ
  error : ℚ
  hasLimits : Bool
  lowerLimit : ELim
  upperLimit : ELim
  fixed : Bool
deriving DecidableEq

/-- Modelled from the spec: the ordered parameter collection of the
external `MnUserParameterState`. -/
def UPState := List MnParam
deriving DecidableEq

/-- Modelled from the spec: `MnUserParameterState.Add(name, val, err)`
appends an unbounded, varying parameter. -/
def upAdd (st : UPState) (n : String) (val err : ℚ) : UPState :=
  List.append st [⟨n, val, err, false, .negInf, .posInf, false⟩]

/-- Apply a name-targeted update to every entry of the given name
(names are unique in practice, see `initialParameterState`). -/
def upModify (st : UPState) (n : String) (f : MnParam → MnParam) : UPState :=
  List.map (fun p => if p.name = n then f p else p) st

/-- Clamp a candidate external value into the limit interval of a
parameter entry.  Modelled from the spec: setting a value on a bounded
parameter goes through the internal reparameterization, which can only
represent points inside the limits; a strictly inside value is
represented exactly (spec sections 4.1 and 8.1). -/
def clampTo (p : MnParam) (x : ℚ) : ℚ :=
  if p.hasLimits then
    let x1 := match p.lowerLimit with
      | .fin lo => max lo x
      | _ => x
    match p.upperLimit with
      | .fin hi => min x1 hi
      | _ => x1
  else x

/-- Modelled from the spec: `MnUserParameterState.SetLimits(name, lo, hi)`
installs a two-sided limit.  The bounded reparameterization does not
preserve the externally visible value (spec section 4.1: value must be
re-applied after setting limits); the model places the parameter at the
midpoint of the new interval, a point the transform can represent. -/
def upSetLimits (st : UPState) (n : String) (lo hi : ℚ) : UPState :=
  upModify st n fun p =>
    { p with hasLimits := true, lowerLimit := .fin lo, upperLimit := .fin hi,
             value := (lo + hi) / 2 }

/-- Modelled from the spec: `MnUserParameterState.SetLowerLimit`. -/
def upSetLowerLimit (st : UPState) (n : String) (lo : ℚ) : UPState :=
  upModify st n fun p =>
    { p with hasLimits := true, lowerLimit := .fin lo, upperLimit := .posInf,
             value := max p.value lo }

/-- Modelled from the spec: `MnUserParameterState.SetUpperLimit`. -/
def upSetUpperLimit (st : UPState) (n : String) (hi : ℚ) : UPState :=
  upModify st n fun p =>
    { p with hasLimits := true, lowerLimit := .negInf, upperLimit := .fin hi,
             value := min p.value hi }

/-- Modelled from the spec: `MnUserParameterState.SetValue` sets the
externally visible value, restoring it through the bounded transform;
values outside the representable interval are clamped to it. -/
def upSetValue (st : UPState) (n : String) (x : ℚ) : UPState :=
  upModify st n fun p => { p with value := clampTo p x }

/-- Modelled from the spec: `MnUserParameterState.SetError`. -/
def upSetError (st : UPState) (n : String) (e : ℚ) : UPState :=
  upModify st n fun p => { p with error := e }

/-- Modelled from the spec: `MnUserParameterState.Fix`. -/
def upFix (st : UPState) (n : String) : UPState :=
  upModify st n fun p => { p with fixed := true }

/-- First entry of the given name (engine lookup by name). -/
def upFind (st : UPState) (n : String) : Option MnParam :=
  List.find? (fun p => p.name == n) st

/-- Externally read value of a named parameter of the state. -/
def upValue (st : UPState) (n : String) : Option ℚ :=
  (upFind st n).map MnParam.value

/-- The construction-time configuration held by a `Minuit` object:
`parameters`, `initial_value`, `initial_error`, `initial_limit` and
`initial_fix` exactly as stored by `Minuit.__init__`. -/
structure MinuitInit where
  parameters : List String
  initial_value : String → ℚ
  initial_error : String → ℚ
  initial_limit : String → Option (BoundIn × BoundIn)
  initial_fix : String → Bool

/-- Registration-time failure raised by `initialParameterState`
(`ValueError`, the `InvalidLimitError` of the spec taxonomy). -/
inductive RegError where
  | invalidLimit (name : String) (lo hi : ELim)
deriving DecidableEq

/-- The message carried by the raised error: the format string
`limit for parameter %s is invalid. %r` applied to the parameter name
and the resolved limit pair. -/
def RegError.msg : RegError → String
  | .invalidLimit n lo hi =>
      "limit for parameter " ++ n ++ " is invalid. (" ++ lo.show ++ ", " ++ hi.show ++ ")"

/-- The body of the second loop of `Minuit.initialParameterState` for a
single parameter `v`: resolve the limit bounds, reject `lb >= ub`,
dispatch to the one-sided / two-sided / unbounded case, and re-apply
value and error after the limits are set. -/
def applyLimit (m : MinuitInit) (st : UPState) (v : String) : Except RegError UPState :=
  match m.initial_limit v with
  | none => .ok st
  | some (l, u) =>
    let lb := resolveLo l
    let ub := resolveHi u
    if ELim.le ub lb then
      .error (.invalidLimit v lb ub)
    else
      let st1 :=
        if lb = .negInf ∧ ub = .posInf then st
        else
          match lb, ub with
          | .fin lo, .posInf => upSetLowerLimit st v lo
          | .negInf, .fin hi => upSetUpperLimit st v hi
          | .fin lo, .fin hi => upSetLimits st v lo hi
          | _, _ => st
      let st2 := upSetValue st1 v (m.initial_value v)
      .ok (upSetError st2 v (m.initial_error v))

/-- The second loop of `initialParameterState`, failing at the first
parameter whose limit is invalid. -/
def foldLimits (m : MinuitInit) : UPState → List String → Except RegError UPState
  | st, [] => .ok st
  | st, v :: vs =>
    match applyLimit m st v with
    | .error e => .error e
    | .ok st2 => foldLimits m st2 vs

/-- The entry appended by the first loop for parameter `v`:
`ret.Add(v, self.initial_value[v], self.initial_error[v])`. -/
def mkEntry (m : MinuitInit) (v : String) : MnParam :=
  ⟨v, m.initial_value v, m.initial_error v, false, .negInf, .posInf, false⟩

/-- The first loop of `initialParameterState`. -/
def addAll (m : MinuitInit) (st : UPState) : List String → UPState
  | [] => st
  | v :: vs => addAll m (upAdd st v (m.initial_value v) (m.initial_error v)) vs

/-- The third loop of `initialParameterState`: fix the parameters whose
`initial_fix` flag is set. -/
def fixAll (m : MinuitInit) (st : UPState) : List String → UPState
  | [] => st
  | v :: vs => fixAll m (if m.initial_fix v then upFix st v else st) vs

/-- `Minuit.initialParameterState`: build the engine-facing initial
parameter state from the registry (add all parameters, apply and
validate limits re-applying value and error afterwards, apply fixed
flags). -/
def initialParameterState (m : MinuitInit) : Except RegError UPState :=
  match foldLimits m (addAll m [] m.parameters) m.parameters with
  | .error e => .error e
  | .ok st => .ok (fixAll m st m.parameters)

/-- Value of parameter `v` in the state produced by a (possibly failed)
state construction; `none` when construction failed. -/
def stateValue (r : Except RegError UPState) (v : String) : Option ℚ :=
  match r with
  | .error _ => none
  | .ok st => upValue st v

/-! ## Minimization session: minos, mncontour, hesse -/

/-- One MINOS asymmetric error record (`minoserror2struct`), reduced to
the fields the claims are about. -/
structure MinosRec where
  lower : ℚ
  upper : ℚ
  isValid : Bool
deriving DecidableEq

/-- Outcome of one external `MnMinos.Minos(index, maxcall)` engine
call: either an error record, or the user objective raised
mid-scan and the exception propagates through the engine. -/
inductive EngineReply where
  | ok (r : MinosRec)
  | exn
deriving DecidableEq

/-- The part of the `Minuit` object state that the `minos`,
`mncontour` and `hesse` orchestration reads and writes: the adapter
error definition `pyfcn.Up()`, the C++-pointer presence flags, the
minimum validity, the registry name/fixed data, the covariance
presence of `last_upst`, and the two MINOS result dictionaries. -/
structure Session where
  up : ℚ
  hasFcn : Bool
  hasMin : Bool
  minValid : Bool
  hasCov : Bool
  parameters : List String
  initialFix : String → Bool
  merrorsStruct : List (String × MinosRec)
  merrors : List ((String × Bool) × ℚ)

/-- `Minuit.list_of_fixed_param`. -/
def fixedParams (s : Session) : List String :=
  s.parameters.filter s.initialFix

/-- `Minuit.list_of_vary_param`. -/
def varyParams (s : Session) : List String :=
  s.parameters.filter (fun v => !s.initialFix v)

/-- Python dict assignment `d[k] = r`: replace the value of an existing
key in place, else append the new binding. -/
def setAssoc (l : List (String × MinosRec)) (k : String) (r : MinosRec) :
    List (String × MinosRec) :=
  if l.any (fun kv => kv.1 == k) then
    l.map (fun kv => if kv.1 == k then (k, r) else kv)
  else
    List.append l [(k, r)]

/-- The MINOS part of `Minuit.refreshInternalState` (lines 1477-1480):
rebuild the legacy dual-key dict `merrors` from `merrors_struct`, with
key `(k, 1.0)` bound to the upper offset and key `(k, -1.0)` bound to
the lower offset.  The sigma key `1.0` is embedded as `true` and
`-1.0` as `false`. -/
def refreshMErrors (ms : List (String × MinosRec)) : List ((String × Bool) × ℚ) :=
  List.append (ms.map (fun kv => ((kv.1, true), kv.2.upper)))
    (ms.map (fun kv => ((kv.1, false), kv.2.lower)))

/-- `Minuit.refreshInternalState`, restricted to the fields of
`Session` it touches. -/
def refreshInternalState (s : Session) : Session :=
  { s with merrors := refreshMErrors s.merrorsStruct }

/-- Lookup in the legacy dual-key dict by a (name, sigma-sign) key;
`true` stands for the key `(name, 1.0)` and `false` for
`(name, -1.0)`. -/
def lookupME (l : List ((String × Bool) × ℚ)) (k : String) (b : Bool) :
    Option ℚ :=
  (l.find? (fun kv => kv.1.1 == k && kv.1.2 == b)).map Prod.snd

/-- Consistency of the dual-key view `merrors` with the per-parameter
records `merrors_struct`: for every record, the key `(k, 1.0)` holds
its upper offset and `(k, -1.0)` its lower offset, and every key of
the view comes from some record (no other keys). -/
def dualKeyConsistent (me : List ((String × Bool) × ℚ))
    (ms : List (String × MinosRec)) : Prop :=
  (∀ k r, (k, r) ∈ ms →
    lookupME me k true = some r.upper ∧ lookupME me k false = some r.lower) ∧
  (∀ k b q, ((k, b), q) ∈ me → ∃ r, (k, r) ∈ ms)

/-- How a `minos` call ends.  The three `err...` constructors and
`objectiveRaised` are exits by exception; `fixedWarnNone` is the
`warn(...); return None` exit for an explicitly requested fixed
parameter; `ok` returns the accumulated `merrors_struct` dict. -/
inductive MinosExit where
  | errNoMinimum
  | errInvalidMinimum
  | errUnknownParam (v : String)
  | fixedWarnNone
  | objectiveRaised (v : String)
  | ok (res : List (String × MinosRec))
deriving DecidableEq

/-- The `for vname in varlist` loop of `Minuit.minos`, threading the
`merrors_struct` dict.  `explicit` records whether a single parameter
was requested (`var is not None`).  Returns `none` when the loop runs
to completion, or the early exit it ended with. -/
def minosLoop (engine : String → EngineReply) (fixedList : List String)
    (explicit : Bool) :
    List String → List (String × MinosRec) →
    Option MinosExit × List (String × MinosRec)
  | [], ms => (none, ms)
  | v :: vs, ms =>
    if v ∈ fixedList then
      if explicit then (some .fixedWarnNone, ms)
      else minosLoop engine fixedList explicit vs ms
    else
      match engine v with
      | .exn => (some (.objectiveRaised v), ms)
      | .ok r => minosLoop engine fixedList explicit vs (setAssoc ms v r)

/-- `Minuit.minos(var, sigma, maxcall)`.  The returned `Session` is the
object state at the moment the call ends, on every exit path including
the exceptional ones, so that the error definition `up` can be
inspected after a failure. -/
def minos (s : Session) (engine : String → EngineReply) (var : Option String)
    (sigma : ℚ) : MinosExit × Session :=
  if ¬ (s.hasFcn ∧ s.hasMin) then (.errNoMinimum, s)
  else
    let oldup := s.up
    let s1 := { s with up := oldup * sigma * sigma }
    if ¬ s.minValid then (.errInvalidMinimum, s1)
    else
      match var with
      | some v =>
        if v ∉ s.parameters then (.errUnknownParam v, s1)
        else
          match minosLoop engine (fixedParams s) true [v] s1.merrorsStruct with
          | (some exit, ms) => (exit, { s1 with merrorsStruct := ms })
          | (none, ms) =>
            let s2 := refreshInternalState { s1 with merrorsStruct := ms }
            (.ok ms, { s2 with up := oldup })
      | none =>
        match minosLoop engine (fixedParams s) false s.parameters s1.merrorsStruct with
        | (some exit, ms) => (exit, { s1 with merrorsStruct := ms })
        | (none, ms) =>
          let s2 := refreshInternalState { s1 with merrorsStruct := ms }
          (.ok ms, { s2 with up := oldup })

/-- Outcome of the external `MnContours.Contour` engine call. -/
inductive ContourReply where
  | ok (xm ym : MinosRec) (pts : List (ℚ × ℚ))
  | exn
deriving DecidableEq

/-- How a `mncontour` call ends. -/
inductive ContourExit where
  | errNoMinimum
  | errUnknownParam
  | errNotVary
  | objectiveRaised
  | ok (xm ym : MinosRec) (pts : List (ℚ × ℚ))
deriving DecidableEq

/-- `Minuit.mncontour(x, y, numpoints, sigma)`, with the engine contour
tracer as an oracle.  As in `minos`, the final `Session` is returned on
every exit path. -/
def mncontour (s : Session) (engine : ContourReply) (x y : String)
    (sigma : ℚ) : ContourExit × Session :=
  if ¬ (s.hasFcn ∧ s.hasMin) then (.errNoMinimum, s)
  else if x ∉ s.parameters ∨ y ∉ s.parameters then (.errUnknownParam, s)
  else if x ∉ varyParams s ∨ y ∉ varyParams s then (.errNotVary, s)
  else
    let oldup := s.up
    let s1 := { s with up := oldup * sigma * sigma }
    match engine with
    | .exn => (.objectiveRaised, s1)
    | .ok xm ym pts => (.ok xm ym pts, { s1 with up := oldup })

/-- How a `hesse` call ends: `warned` is true when the engine-returned
parameter state has no covariance and the `HesseFailedWarning`
diagnostic was emitted. -/
inductive HesseExit where
  | errNoMinimum
  | done (warned : Bool)
deriving DecidableEq

/-- `Minuit.hesse(maxcall)`: requires a prior minimum; the engine
returns a parameter state whose covariance may be missing, in which
case a warning is emitted but the call still completes, stores the new
state and refreshes the internal views. -/
def hesse (s : Session) (engineHasCov : Bool) : HesseExit × Session :=
  if ¬ s.hasMin then (.errNoMinimum, s)
  else
    (.done (!engineHasCov), refreshInternalState { s with hasCov := engineHasCov })

/-! ## migrad restart semantics and the split loop -/

/-- The session state relevant to `Minuit.migrad`'s restart semantics:
the construction-time registry, the current (best-fit) values as
refreshed after a run, the adapter call counters, and whether the
session is still clean (`is_clean_state`). -/
structure MigradSession where
  init : MinuitInit
  values : String → ℚ
  numCall : ℕ
  numGrad : ℕ
  clean : Bool

/-- The preparation phase of `Minuit.migrad` (lines 526-555): when not
resuming, or when the state is clean, a fresh FCN adapter (with zeroed
call counters) and a fresh engine seeded by `initialParameterState`
are constructed; when `resume=False` the counters are additionally
reset explicitly.  Returns the seed state passed to the new engine
(`none` when the existing engine is resumed) and the updated session. -/
def migradPrep (s : MigradSession) (resume : Bool) :
    Option (Except RegError UPState) × MigradSession :=
  if ¬ resume ∨ s.clean then
    (some (initialParameterState s.init),
     { s with numCall := 0, numGrad := 0, clean := false })
  else
    (none, s)

/-- Python 3 `round` on an exact rational: round half to even. -/
def pythonRound (q : ℚ) : ℤ :=
  let f := ⌊q⌋
  let r := q - f
  if r < 1/2 then f
  else if 1/2 < r then f + 1
  else if 2 ∣ f then f else f + 1

/-- `ncall_round = round(1.0 * ncall / nsplit)` from `Minuit.migrad`. -/
def migradBudget (ncall nsplit : ℤ) : ℤ :=
  pythonRound ((ncall : ℚ) / (nsplit : ℚ))

/-- The `while (first) or (not IsValid and totalcalls < ncall)` loop of
`Minuit.migrad`, with the engine sub-runs abstracted by the validity
oracle `valid : ℕ → Bool` (whether the minimum after the k-th sub-run,
0-indexed, is valid).  `totalcalls` after `k+1` sub-runs is
`(k+1) * nround`.  Returns the total number of sub-runs executed; the
`fuel` argument is only a structural bound and never runs out when
called with `fuel = ncall.toNat` and `0 < nround`
(see `migradGo_spec`). -/
def migradGo (valid : ℕ → Bool) (ncall nround : ℤ) : ℕ → ℕ → ℕ
  | 0, k => k + 1
  | fuel + 1, k =>
    if valid k || decide (ncall ≤ (k + 1) * nround) then k + 1
    else migradGo valid ncall nround fuel (k + 1)

/-- Outcome of `Minuit.migrad(ncall, nsplit)`: either the
`assert ncall_round > 0` rejection, or normal completion after the
given number of sub-runs. -/
inductive MigradOutcome where
  | budgetRejected
  | finished (runs : ℕ)
deriving DecidableEq

/-- The budget check and split loop of `Minuit.migrad` (lines 557-579),
with sub-run validity abstracted by `valid`. -/
def migrad (valid : ℕ → Bool) (ncall nsplit : ℤ) : MigradOutcome :=
  let nr := migradBudget ncall nsplit
  if nr ≤ 0 then .budgetRejected
  else .finished (migradGo valid ncall nr ncall.toNat 0)

/-! ## profile scan -/

/-- `np.linspace(lo, hi, bins)`: `bins` evenly spaced samples over
`[lo, hi]`, endpoints included. -/
def linspace (lo hi : ℚ) (bins : ℕ) : List ℚ :=
  if bins = 1 then [lo]
  else (List.range bins).map
    (fun i : ℕ => lo + (hi - lo) * (i : ℚ) / ((bins : ℚ) - 1))

/-- The session state read by `Minuit.profile`: the name-to-position
map, the current best-fit argument tuple `self.args`, the raw user
objective `self.fcn`, and the FCN adapter call counter
(`get_num_call_fcn`). -/
structure ProfSession where
  parameters : List String
  var2pos : String → ℕ
  args : List ℚ
  fcn : List ℚ → ℚ
  adapterCalls : ℕ

/-- `Minuit.profile(vname, bins, bound)` with an explicit bound pair:
sample `bins` points by `linspace`, evaluate the raw objective at each
point with only position `var2pos vname` of `self.args` replaced, and
return `(val, result)`, the session as the call leaves it, and the
number of direct invocations of the user callable performed by the
loop. -/
def profile (s : ProfSession) (vname : String) (bins : ℕ) (lo hi : ℚ) :
    (List ℚ × List ℚ) × ProfSession × ℕ :=
  let val := linspace lo hi bins
  let pos := s.var2pos vname
  let result := val.map (fun x => s.fcn (s.args.set pos x))
  ((val, result), s, result.length)

/-! ## covariance / correlation matrix accessor -/

/-- The data behind `Minuit.matrix` once a valid covariance exists: the
parameter count, the per-position fixed flags of
`last_upst.MinuitParameters()`, and the engine covariance accessor
`mncov.get`. -/
structure CovState where
  n : ℕ
  isFixed : ℕ → Bool
  cov : ℕ → ℕ → ℚ

/-- The index list `ind` of `Minuit.matrix`: all positions, or only
the non-fixed ones when `skip_fixed` is set. -/
def matrixInd (s : CovState) (skipFixed : Bool) : List ℕ :=
  if skipFixed then (List.range s.n).filter (fun i => !s.isFixed i)
  else List.range s.n

/-- The local `cov(i, j)` of `Minuit.matrix`. -/
def covEntry (s : CovState) (skipFixed : Bool) (i j : ℕ) : ℚ :=
  if skipFixed then s.cov i j
  else if s.isFixed i || s.isFixed j then 0
  else s.cov i j

/-- The local `cor(i, j)` of `Minuit.matrix`; `Rat.sqrt` stands for the
float square root, exact on the squares the diagonal identity needs. -/
def corEntry (s : CovState) (skipFixed : Bool) (i j : ℕ) : ℚ :=
  if skipFixed then
    covEntry s true i j / Rat.sqrt (covEntry s true i i * covEntry s true j j)
  else if i = j then 1
  else if s.isFixed i || s.isFixed j then 0
  else s.cov i j / Rat.sqrt (s.cov i i * s.cov j j)

/-- `Minuit.matrix(correlation, skip_fixed)`: the tuple of tuples
`tuple(tuple(f(i, j) for i in ind) for j in ind)` (the outer index is
`j`, the inner `i`). -/
def matrixQ (s : CovState) (correlation skipFixed : Bool) : List (List ℚ) :=
  let ind := matrixInd s skipFixed
  ind.map (fun j => ind.map (fun i =>
    if correlation then corEntry s skipFixed i j else covEntry s skipFixed i j))

/-! ## keyword validation -/

/-- The membership test of `Minuit._check_extra_args`: a keyword is
understood when it is a parameter name or a `fix_` / `limit_` /
`error_` variant of one. -/
def validKey (ps : List String) (k : String) : Bool :=
  ps.any (fun p =>
    k == p || k == "fix_" ++ p || k == "limit_" ++ p || k == "error_" ++ p)

/-- `Minuit._check_extra_args(parameters, kwd)`: raise a `RuntimeError`
naming the first keyword that is not understood, else return normally.
The carried message is the format string
`Cannot understand keyword %s. May be a typo?` applied to the key. -/
def checkExtraArgs (ps kwdKeys : List String) : Except String Unit :=
  match kwdKeys.find? (fun k => !validKey ps k) with
  | some k => .error ("Cannot understand keyword " ++ k ++ ". May be a typo?")
  | none => .ok ()

/-! ## Concrete instances used by witnesses and counterexamples -/

/-- A registry with one unbounded parameter `x` started at 0. -/
def restartInit : MinuitInit where
  parameters := ["x"]
  initial_value := fun _ => 0
  initial_error := fun _ => 1
  initial_limit := fun _ => none
  initial_fix := fun _ => false

/-- A session that has already minimized: the refreshed best-fit value
of `x` is 5 and the adapter has counted 77 objective calls. -/
def restartSession : MigradSession where
  init := restartInit
  values := fun _ => 5
  numCall := 77
  numGrad := 3
  clean := false

/-- A registry whose parameter `a` carries the degenerate limit (3, 3). -/
def limit3Init : MinuitInit where
  parameters := ["a"]
  initial_value := fun _ => 1
  initial_error := fun _ => 1
  initial_limit := fun _ => some (.val 3, .val 3)
  initial_fix := fun _ => false

/-- A registry with a bounded parameter `a` (limit (0, 2), initial
value 1, strictly inside) and an unbounded fixed parameter `b`. -/
def roundTripInit : MinuitInit where
  parameters := ["a", "b"]
  initial_value := fun v => if v == "a" then 1 else 7
  initial_error := fun _ => 1
  initial_limit := fun v => if v == "a" then some (.val 0, .val 2) else none
  initial_fix := fun v => v == "b"

/-- A session holding a valid minimum whose only parameter `x` is
fixed, with error definition 1. -/
def leakSession : Session where
  up := 1
  hasFcn := true
  hasMin := true
  minValid := true
  hasCov := true
  parameters := ["x"]
  initialFix := fun v => v == "x"
  merrorsStruct := []
  merrors := []

/-- A session holding a valid minimum with two varying parameters and
error definition 1. -/
def leakVarySession : Session where
  up := 1
  hasFcn := true
  hasMin := true
  minValid := true
  hasCov := true
  parameters := ["a", "b"]
  initialFix := fun _ => false
  merrorsStruct := []
  merrors := []

/-- An engine oracle whose MINOS scan always succeeds. -/
def okEngine : String → EngineReply := fun _ => .ok ⟨-1, 1, true⟩

/-- A session holding a valid minimum with fixed `x` and varying `y`. -/
def twoParamSession : Session where
  up := 1
  hasFcn := true
  hasMin := true
  minValid := true
  hasCov := true
  parameters := ["x", "y"]
  initialFix := fun v => v == "x"
  merrorsStruct := []
  merrors := []

/-- An engine oracle returning the record (-2, 2) for every scan. -/
def minosOkEngine : String → EngineReply := fun _ => .ok ⟨-2, 2, true⟩

/-- A session that already holds one MINOS record, for `y`. -/
def merrSession : Session where
  up := 1
  hasFcn := true
  hasMin := true
  minValid := true
  hasCov := true
  parameters := ["x", "y"]
  initialFix := fun v => v == "x"
  merrorsStruct := [("y", ⟨-2, 2, true⟩)]
  merrors := []

/-- A two-parameter profile session at best fit (9, 10) with a
paraboloid objective and 7 adapter calls counted so far. -/
def profSample : ProfSession where
  parameters := ["a", "b"]
  var2pos := fun v => if v == "a" then 0 else 1
  args := [9, 10]
  fcn := fun xs => (xs.getD 0 0 - 2) ^ 2 + (xs.getD 1 0 - 3) ^ 2
  adapterCalls := 7

/-- A three-parameter covariance sample whose position 2 is fixed. -/
def covSample : CovState where
  n := 3
  isFixed := fun i => i == 2
  cov := fun i j =>
    if i == j then (if i == 0 then 4 else if i == 1 then 9 else 25) else 6

/-! ## Helper lemmas: name-targeted state updates -/

theorem upFind_upModify (st : UPState) (n : String) (f : MnParam → MnParam)
    (v : String) (hf : ∀ p, (f p).name = p.name) :
    upFind (upModify st n f) v =
      (upFind st v).map (fun p => if p.name = n then f p else p) := by
  unfold upFind upModify
  rw [List.find?_map]
  have hpred : ((fun p : MnParam => p.name == v) ∘
      (fun p => if p.name = n then f p else p)) = fun p : MnParam => p.name == v := by
    funext p
    by_cases h : p.name = n <;> simp [h, hf]
  rw [hpred]

theorem upFind_upModify_ne (st : UPState) (n : String) (f : MnParam → MnParam)
    (v : String) (hf : ∀ p, (f p).name = p.name) (hne : v ≠ n) :
    upFind (upModify st n f) v = upFind st v := by
  rw [upFind_upModify st n f v hf]
  cases h : upFind st v with
  | none => rfl
  | some p =>
    have hp : p.name = v := by
      have := List.find?_some h
      simpa using this
    simp [hp, hne]

theorem upFind_upModify_self (st : UPState) (n : String) (f : MnParam → MnParam)
    (p : MnParam) (hf : ∀ p, (f p).name = p.name) (hp : upFind st n = some p) :
    upFind (upModify st n f) n = some (f p) := by
  rw [upFind_upModify st n f n hf]
  rw [hp]
  have hpn : p.name = n := by
    have := List.find?_some hp
    simpa using this
  simp [hpn]

theorem upFind_upSetLimits_ne (st : UPState) (w v : String) (lo hi : ℚ)
    (hne : v ≠ w) : upFind (upSetLimits st w lo hi) v = upFind st v :=
  upFind_upModify_ne st w
    (fun p =>
      { p with hasLimits := true, lowerLimit := .fin lo, upperLimit := .fin hi,
               value := (lo + hi) / 2 }) v (fun _ => rfl) hne

theorem upFind_upSetLowerLimit_ne (st : UPState) (w v : String) (lo : ℚ)
    (hne : v ≠ w) : upFind (upSetLowerLimit st w lo) v = upFind st v :=
  upFind_upModify_ne st w
    (fun p =>
      { p with hasLimits := true, lowerLimit := .fin lo, upperLimit := .posInf,
               value := max p.value lo }) v (fun _ => rfl) hne

theorem upFind_upSetUpperLimit_ne (st : UPState) (w v : String) (hi : ℚ)
    (hne : v ≠ w) : upFind (upSetUpperLimit st w hi) v = upFind st v :=
  upFind_upModify_ne st w
    (fun p =>
      { p with hasLimits := true, lowerLimit := .negInf, upperLimit := .fin hi,
               value := min p.value hi }) v (fun _ => rfl) hne

theorem upFind_upSetValue_ne (st : UPState) (w v : String) (x : ℚ)
    (hne : v ≠ w) : upFind (upSetValue st w x) v = upFind st v :=
  upFind_upModify_ne st w
    (fun p => { p with value := clampTo p x }) v (fun _ => rfl) hne

theorem upFind_upSetError_ne (st : UPState) (w v : String) (e : ℚ)
    (hne : v ≠ w) : upFind (upSetError st w e) v = upFind st v :=
  upFind_upModify_ne st w
    (fun p => { p with error := e }) v (fun _ => rfl) hne

theorem upFind_upSetLimits_self (st : UPState) (w : String) (lo hi : ℚ)
    (p : MnParam) (hp : upFind st w = some p) :
    upFind (upSetLimits st w lo hi) w =
      some { p with
        hasLimits := true
        lowerLimit := .fin lo
        upperLimit := .fin hi
        value := (lo + hi) / 2 } :=
  upFind_upModify_self st w
    (fun q =>
      { q with hasLimits := true, lowerLimit := .fin lo, upperLimit := .fin hi,
               value := (lo + hi) / 2 }) p (fun _ => rfl) hp

theorem upFind_upSetValue_self (st : UPState) (w : String) (x : ℚ)
    (p : MnParam) (hp : upFind st w = some p) :
    upFind (upSetValue st w x) w = some { p with value := clampTo p x } :=
  upFind_upModify_self st w
    (fun q => { q with value := clampTo q x }) p (fun _ => rfl) hp

theorem upFind_upSetError_self (st : UPState) (w : String) (e : ℚ)
    (p : MnParam) (hp : upFind st w = some p) :
    upFind (upSetError st w e) w = some { p with error := e } :=
  upFind_upModify_self st w
    (fun q => { q with error := e }) p (fun _ => rfl) hp

theorem upValue_upFix (st : UPState) (w v : String) :
    upValue (upFix st w) v = upValue st v := by
  unfold upValue upFix
  rw [upFind_upModify st w (fun p => { p with fixed := true }) v (fun _ => rfl)]
  cases h : upFind st v with
  | none => rfl
  | some p => by_cases hpw : p.name = w <;> simp [hpw]

theorem addAll_eq (m : MinuitInit) (ps : List String) (st : UPState) :
    addAll m st ps = List.append st (ps.map (mkEntry m)) := by
  induction ps generalizing st with
  | nil => simp [addAll, UPState]
  | cons v vs ih =>
    show addAll m (upAdd st v (m.initial_value v) (m.initial_error v)) vs = _
    rw [ih]
    show List.append (List.append st [mkEntry m v]) _ = _
    simp [List.append_assoc]

theorem upFind_mkEntries (m : MinuitInit) (ps : List String) (v : String)
    (hv : v ∈ ps) :
    upFind (ps.map (mkEntry m)) v = some (mkEntry m v) := by
  induction ps with
  | nil => cases hv
  | cons x xs ih =>
    by_cases hx : x = v
    · subst hx
      show upFind (mkEntry m x :: xs.map (mkEntry m)) x = _
      simp [upFind, List.find?, mkEntry]
    · have hv' : v ∈ xs := by
        cases hv with
        | head => exact absurd rfl hx
        | tail _ h => exact h
      show upFind (mkEntry m x :: xs.map (mkEntry m)) v = _
      have hxe : ((mkEntry m x).name == v) = false := by
        simp only [mkEntry, beq_eq_false_iff_ne, ne_eq]
        exact hx
      simp only [upFind, List.find?, hxe]
      exact ih hv'

theorem upFind_addAll_nil (m : MinuitInit) (v : String) (hv : v ∈ m.parameters) :
    upFind (addAll m [] m.parameters) v = some (mkEntry m v) := by
  rw [addAll_eq]
  show upFind (m.parameters.map (mkEntry m)) v = _
  exact upFind_mkEntries m m.parameters v hv

theorem applyLimit_ne (m : MinuitInit) (st st2 : UPState) (w v : String)
    (hne : v ≠ w) (h : applyLimit m st w = .ok st2) :
    upFind st2 v = upFind st v := by
  unfold applyLimit at h
  cases hlim : m.initial_limit w with
  | none =>
    rw [hlim] at h
    cases h
    rfl
  | some lu =>
    obtain ⟨l, u⟩ := lu
    rw [hlim] at h
    simp only at h
    by_cases hle : ELim.le (resolveHi u) (resolveLo l) = true
    · rw [if_pos hle] at h; cases h
    · rw [if_neg hle] at h
      cases h
      rw [upFind_upSetError_ne _ w v _ hne]
      rw [upFind_upSetValue_ne _ w v _ hne]
      by_cases hpass : resolveLo l = ELim.negInf ∧ resolveHi u = ELim.posInf
      · rw [if_pos hpass]
      · rw [if_neg hpass]
        cases hl : resolveLo l <;> cases hu : resolveHi u <;>
          first
            | rfl
            | exact upFind_upSetLowerLimit_ne st w v _ hne
            | exact upFind_upSetUpperLimit_ne st w v _ hne
            | exact upFind_upSetLimits_ne st w v _ _ hne

theorem applyLimit_nolimit (m : MinuitInit) (st : UPState) (v : String)
    (h : m.initial_limit v = none) : applyLimit m st v = .ok st := by
  unfold applyLimit
  rw [h]

theorem applyLimit_self (m : MinuitInit) (st : UPState) (v : String)
    (lo hi : ℚ) (p : MnParam)
    (hlim : m.initial_limit v = some (.val lo, .val hi))
    (hlo : lo < m.initial_value v) (hhi : m.initial_value v < hi)
    (hp : upFind st v = some p) :
    ∃ st2, applyLimit m st v = .ok st2 ∧
      upValue st2 v = some (m.initial_value v) := by
  have hle : ELim.le (ELim.fin hi) (ELim.fin lo) = false := by
    simp only [ELim.le, decide_eq_false_iff_not, not_le]
    exact lt_trans hlo hhi
  unfold applyLimit
  rw [hlim]
  simp only [resolveLo, resolveHi]
  rw [hle]
  refine ⟨_, rfl, ?_⟩
  show upValue (upSetError (upSetValue (upSetLimits st v lo hi) v
    (m.initial_value v)) v (m.initial_error v)) v = some (m.initial_value v)
  have h1 := upFind_upSetLimits_self st v lo hi p hp
  have h2 := upFind_upSetValue_self (upSetLimits st v lo hi) v
    (m.initial_value v) _ h1
  have hcl : clampTo { p with
      hasLimits := true
      lowerLimit := ELim.fin lo
      upperLimit := ELim.fin hi
      value := (lo + hi) / 2 } (m.initial_value v) = m.initial_value v := by
    show min (max lo (m.initial_value v)) hi = m.initial_value v
    rw [max_eq_right (le_of_lt hlo), min_eq_left (le_of_lt hhi)]
  rw [hcl] at h2
  have h3 := upFind_upSetError_self _ v (m.initial_error v) _ h2
  unfold upValue
  rw [h3]
  rfl

theorem foldLimits_append (m : MinuitInit) (st : UPState) (l1 l2 : List String) :
    foldLimits m st (l1 ++ l2) =
      match foldLimits m st l1 with
      | .error e => .error e
      | .ok st' => foldLimits m st' l2 := by
  induction l1 generalizing st with
  | nil => simp [foldLimits]
  | cons v vs ih =>
    show (match applyLimit m st v with
          | Except.error e => Except.error e
          | Except.ok st2 => foldLimits m st2 (vs ++ l2)) =
         (match (match applyLimit m st v with
                 | Except.error e => Except.error e
                 | Except.ok st2 => foldLimits m st2 vs) with
          | Except.error e => Except.error e
          | Except.ok st' => foldLimits m st' l2)
    cases applyLimit m st v with
    | error e => rfl
    | ok st2 => exact ih st2

theorem foldLimits_notmem (m : MinuitInit) (st st2 : UPState) (ps : List String)
    (v : String) (hv : v ∉ ps) (h : foldLimits m st ps = .ok st2) :
    upFind st2 v = upFind st v := by
  induction ps generalizing st with
  | nil =>
    cases h
    rfl
  | cons w ws ih =>
    unfold foldLimits at h
    cases happ : applyLimit m st w with
    | error e => rw [happ] at h; cases h
    | ok stm =>
      rw [happ] at h
      have hvw : v ≠ w := fun heq => hv (heq ▸ List.mem_cons_self w ws)
      have hvs : v ∉ ws := fun hmem => hv (List.mem_cons_of_mem w hmem)
      rw [ih stm hvs h, applyLimit_ne m st stm w v hvw happ]

theorem foldLimits_nolimit (m : MinuitInit) (st st2 : UPState) (ps : List String)
    (v : String) (hnl : m.initial_limit v = none) (h : foldLimits m st ps = .ok st2) :
    upFind st2 v = upFind st v := by
  induction ps generalizing st with
  | nil => cases h; rfl
  | cons w ws ih =>
    unfold foldLimits at h
    cases happ : applyLimit m st w with
    | error e => rw [happ] at h; cases h
    | ok stm =>
      rw [happ] at h
      by_cases hvw : v = w
      · subst hvw
        rw [applyLimit_nolimit m st v hnl] at happ
        cases happ
        exact ih st h
      · rw [ih stm h, applyLimit_ne m st stm w v hvw happ]

theorem upValue_fixAll (m : MinuitInit) (st : UPState) (ps : List String)
    (v : String) : upValue (fixAll m st ps) v = upValue st v := by
  induction ps generalizing st with
  | nil => rfl
  | cons w ws ih =>
    show upValue (fixAll m (if m.initial_fix w then upFix st w else st) ws) v = _
    rw [ih]
    by_cases hw : m.initial_fix w
    · rw [if_pos hw, upValue_upFix st w v]
    · rw [if_neg hw]

/-! ## Registration-time limit validation (C3) -/

theorem applyLimit_bad (m : MinuitInit) (st : UPState) (v : String)
    (l u : BoundIn) (hlim : m.initial_limit v = some (l, u))
    (hge : ELim.le (resolveHi u) (resolveLo l) = true) :
    applyLimit m st v = .error (.invalidLimit v (resolveLo l) (resolveHi u)) := by
  unfold applyLimit
  rw [hlim]
  simp only [hge, if_true]

theorem foldLimits_bad (m : MinuitInit) (ps : List String) (v : String)
    (l u : BoundIn) (hv : v ∈ ps) (hlim : m.initial_limit v = some (l, u))
    (hge : ELim.le (resolveHi u) (resolveLo l) = true) :
    ∀ st : UPState, ∃ e, foldLimits m st ps = .error e := by
  induction ps with
  | nil => cases hv
  | cons w ws ih =>
    intro st
    cases happ : applyLimit m st w with
    | error e =>
      refine ⟨e, ?_⟩
      unfold foldLimits
      rw [happ]
    | ok st2 =>
      by_cases hw : w = v
      · subst hw
        rw [applyLimit_bad m st w l u hlim hge] at happ
        cases happ
      · have hv' : v ∈ ws := by
          cases hv with
          | head => exact absurd rfl (fun h => hw h.symm)
          | tail _ h => exact h
        obtain ⟨e, he⟩ := ih hv' st2
        refine ⟨e, ?_⟩
        unfold foldLimits
        rw [happ]
        exact he

/-- C3: for every parameter and every limit pair resolving to
`lb >= ub` (including equality), the registration step for that
parameter fails with the invalid-limit error, whose message names the
offending parameter and the offending limit values; consequently the
whole initial-state construction fails with an invalid-limit error. -/
theorem C3_invalid_limit_rejected (m : MinuitInit) (st : UPState) (v : String)
    (l u : BoundIn) (hlim : m.initial_limit v = some (l, u))
    (hge : ELim.le (resolveHi u) (resolveLo l) = true) :
    applyLimit m st v = .error (.invalidLimit v (resolveLo l) (resolveHi u)) ∧
    (RegError.invalidLimit v (resolveLo l) (resolveHi u)).msg =
      "limit for parameter " ++ v ++ " is invalid. (" ++
        (resolveLo l).show ++ ", " ++ (resolveHi u).show ++ ")" ∧
    (v ∈ m.parameters →
      ∃ w lo hi, initialParameterState m = .error (.invalidLimit w lo hi)) := by
  refine ⟨applyLimit_bad m st v l u hlim hge, rfl, fun hv => ?_⟩
  obtain ⟨e, he⟩ :=
    foldLimits_bad m m.parameters v l u hv hlim hge (addAll m [] m.parameters)
  obtain ⟨w, lo, hi⟩ := e
  refine ⟨w, lo, hi, ?_⟩
  unfold initialParameterState
  rw [he]

theorem C3_witness :
    applyLimit limit3Init [] "a" =
      .error (.invalidLimit "a" (.fin 3) (.fin 3)) ∧
    (∃ w lo hi, initialParameterState limit3Init =
      .error (.invalidLimit w lo hi)) :=
  ⟨(C3_invalid_limit_rejected limit3Init [] "a" (.val 3) (.val 3) rfl
      (by decide)).1,
   (C3_invalid_limit_rejected limit3Init [] "a" (.val 3) (.val 3) rfl
      (by decide)).2.2 (by decide)⟩

/-! ## Bounded-parameter value round trip (C7) -/

/-- C7: for a registered parameter with a finite two-sided limit
(lo, hi), lo < hi, whose initial value lies strictly inside, the built
initial engine state reads back exactly the originally supplied value:
`initialParameterState` re-applies the value after installing the
limits, undoing the reparameterization shift. -/
theorem C7_limit_round_trip (m : MinuitInit) (v : String) (lo hi : ℚ)
    (hnd : m.parameters.Nodup) (hv : v ∈ m.parameters)
    (hlim : m.initial_limit v = some (.val lo, .val hi))
    (hlo : lo < m.initial_value v) (hhi : m.initial_value v < hi)
    (hok : ∃ st, initialParameterState m = .ok st) :
    stateValue (initialParameterState m) v = some (m.initial_value v) := by
  obtain ⟨st, hst⟩ := hok
  have hgoal : stateValue (initialParameterState m) v = upValue st v := by
    rw [hst]
    rfl
  rw [hgoal]
  unfold initialParameterState at hst
  cases hfold : foldLimits m (addAll m [] m.parameters) m.parameters with
  | error e => rw [hfold] at hst; cases hst
  | ok stL =>
    rw [hfold] at hst
    injection hst with hst2
    subst hst2
    rw [upValue_fixAll]
    obtain ⟨l1, l2, hsplit⟩ := List.append_of_mem hv
    set st0 := addAll m [] m.parameters with hst0
    rw [hsplit] at hfold
    have hnd2 : (l1 ++ v :: l2).Nodup := hsplit ▸ hnd
    rw [List.nodup_append] at hnd2
    have hvl1 : v ∉ l1 := fun hmem => hnd2.2.2 hmem (List.mem_cons_self v l2)
    have hvl2 : v ∉ l2 := (List.nodup_cons.mp hnd2.2.1).1
    rw [foldLimits_append] at hfold
    cases hA : foldLimits m st0 l1 with
    | error e => rw [hA] at hfold; cases hfold
    | ok stA =>
      rw [hA] at hfold
      have hfindA : upFind stA v = some (mkEntry m v) := by
        rw [foldLimits_notmem m st0 stA l1 v hvl1 hA, hst0]
        exact upFind_addAll_nil m v hv
      unfold foldLimits at hfold
      cases hB : applyLimit m stA v with
      | error e => rw [hB] at hfold; cases hfold
      | ok stB =>
        rw [hB] at hfold
        obtain ⟨stB2, hB2, hval⟩ :=
          applyLimit_self m stA v lo hi _ hlim hlo hhi hfindA
        rw [hB] at hB2
        injection hB2 with hB3
        rw [hB3] at hfold
        have hpres := foldLimits_notmem m stB2 stL l2 v hvl2 hfold
        unfold upValue at hval ⊢
        rw [hpres]
        exact hval

theorem C7_witness :
    stateValue (initialParameterState roundTripInit) "a" = some 1 :=
  C7_limit_round_trip roundTripInit "a" 0 2 (by decide) (by decide) rfl
    (by norm_num [roundTripInit]) (by norm_num [roundTripInit]) ⟨_, rfl⟩

/-! ## migrad restart semantics (C2) -/

/-- C2 as stated is false: a non-resumed `migrad` does not seed the new
minimization from the current best-fit values.  Concretely, with the
registry started at `x = 0` and the current best-fit value `x = 5`,
the seed built by `migradPrep` reads back 0 (the originally supplied
initial value), not 5. -/
theorem C2_counterexample :
    (migradPrep restartSession false).1 =
      some (initialParameterState restartInit) ∧
    stateValue (initialParameterState restartInit) "x" = some 0 ∧
    restartSession.values "x" = 5 ∧
    (some (0 : ℚ) : Option ℚ) ≠ some 5 := by
  refine ⟨rfl, by decide, rfl, by decide⟩

/-- C2, amended: a non-resumed `migrad` resets both adapter call
counters and seeds the fresh minimization from the originally supplied
initial values held by the registry (`initial_value`, which
`refreshInternalState` never updates); the seed is a function of the
construction-time registry alone and is unaffected by the session's
current best-fit values. -/
theorem C2_restart_seeds_initial (s : MigradSession) (v : String)
    (hv : v ∈ s.init.parameters) (hnl : s.init.initial_limit v = none) :
    (migradPrep s false).2.numCall = 0 ∧
    (migradPrep s false).2.numGrad = 0 ∧
    (migradPrep s false).1 = some (initialParameterState s.init) ∧
    (∀ t : MigradSession, t.init = s.init →
      (migradPrep t false).1 = (migradPrep s false).1) ∧
    (∀ st, initialParameterState s.init = .ok st →
      upValue st v = some (s.init.initial_value v)) := by
  refine ⟨rfl, rfl, rfl, fun t ht => ?_, fun st hst => ?_⟩
  · show some (initialParameterState t.init) = some (initialParameterState s.init)
    rw [ht]
  · unfold initialParameterState at hst
    cases hfold : foldLimits s.init (addAll s.init [] s.init.parameters)
        s.init.parameters with
    | error e => rw [hfold] at hst; cases hst
    | ok stL =>
      rw [hfold] at hst
      injection hst with hst2
      subst hst2
      rw [upValue_fixAll]
      unfold upValue
      rw [foldLimits_nolimit s.init _ stL s.init.parameters v hnl hfold]
      rw [upFind_addAll_nil s.init v hv]
      rfl

theorem C2_restart_witness :
    (migradPrep restartSession false).2.numCall = 0 ∧
    (∀ st, initialParameterState restartSession.init = .ok st →
      upValue st "x" = some (restartSession.init.initial_value "x")) := by
  have h := C2_restart_seeds_initial restartSession "x" (by decide) rfl
  exact ⟨h.1, h.2.2.2.2⟩

/-! ## Session-layer helper lemmas -/

theorem minos_explicit_fixed (s : Session) (engine : String → EngineReply)
    (v : String) (sigma : ℚ)
    (hf : s.hasFcn = true) (hm : s.hasMin = true) (hvld : s.minValid = true)
    (hp : v ∈ s.parameters) (hfix : s.initialFix v = true) :
    minos s engine (some v) sigma =
      (.fixedWarnNone, { s with up := s.up * sigma * sigma }) := by
  have hvf : v ∈ fixedParams s := List.mem_filter.mpr ⟨hp, hfix⟩
  unfold minos
  simp only [hf, hm, hvld, hp, minosLoop, hvf, if_true, if_pos, not_true,
    and_self, not_false_iff, if_false, if_neg, not_not]

theorem minos_unknown_param (s : Session) (engine : String → EngineReply)
    (v : String) (sigma : ℚ)
    (hf : s.hasFcn = true) (hm : s.hasMin = true) (hvld : s.minValid = true)
    (hp : v ∉ s.parameters) :
    minos s engine (some v) sigma =
      (.errUnknownParam v, { s with up := s.up * sigma * sigma }) := by
  unfold minos
  simp only [hf, hm, hvld, hp, and_self, not_true, not_false_iff, if_false, if_true]

theorem setAssoc_mem_ne (ms : List (String × MinosRec)) (k : String)
    (r : MinosRec) (k2 : String) (r2 : MinosRec) (hne : k2 ≠ k) :
    ((k2, r2) ∈ setAssoc ms k r) ↔ (k2, r2) ∈ ms := by
  unfold setAssoc
  by_cases h : ms.any (fun kv => kv.1 == k)
  · rw [if_pos h]
    constructor
    · intro hm
      obtain ⟨kv, hkv, heq⟩ := List.mem_map.mp hm
      by_cases hk : kv.1 = k
      · rw [if_pos (by simpa using hk)] at heq
        cases heq
        exact absurd rfl hne
      · rw [if_neg (by simpa using hk)] at heq
        exact heq ▸ hkv
    · intro hm
      refine List.mem_map.mpr ⟨(k2, r2), hm, ?_⟩
      rw [if_neg (by simpa using hne)]
  · rw [if_neg h]
    show (k2, r2) ∈ List.append ms [(k, r)] ↔ _
    constructor
    · intro hm
      rcases List.mem_append.mp hm with h1 | h1
      · exact h1
      · simp only [List.mem_singleton] at h1
        cases h1
        exact absurd rfl hne
    · intro hm
      exact List.mem_append.mpr (Or.inl hm)

theorem setAssoc_keys_nodup (ms : List (String × MinosRec)) (k : String)
    (r : MinosRec) (h : (ms.map Prod.fst).Nodup) :
    ((setAssoc ms k r).map Prod.fst).Nodup := by
  unfold setAssoc
  by_cases hany : ms.any (fun kv => kv.1 == k)
  · rw [if_pos hany]
    have hmaps : (ms.map (fun kv => if kv.1 == k then (k, r) else kv)).map Prod.fst
        = ms.map Prod.fst := by
      rw [List.map_map]
      apply List.map_congr_left
      intro kv _
      by_cases hk : kv.1 = k <;> simp [hk]
    rw [hmaps]
    exact h
  · rw [if_neg hany]
    have hknot : k ∉ ms.map Prod.fst := by
      intro hmem
      obtain ⟨kv, hkv, hfst⟩ := List.mem_map.mp hmem
      exact hany (List.any_eq_true.mpr ⟨kv, hkv, by simp [hfst]⟩)
    show ((List.append ms [(k, r)]).map Prod.fst).Nodup
    rw [show List.append ms [(k, r)] = ms ++ [(k, r)] from rfl, List.map_append]
    simp only [List.map_cons, List.map_nil]
    rw [List.nodup_append]
    exact ⟨h, List.nodup_singleton k, by
      intro a ha hb
      simp only [List.mem_singleton] at hb
      exact hknot (hb ▸ ha)⟩

theorem minosLoop_no_fixed_key (engine : String → EngineReply)
    (fixedList : List String) (explicit : Bool) (f : String)
    (hf : f ∈ fixedList) :
    ∀ (vs : List String) (ms : List (String × MinosRec)) out res,
      minosLoop engine fixedList explicit vs ms = (out, res) →
      (∀ r, (f, r) ∉ ms) → ∀ r, (f, r) ∉ res := by
  intro vs
  induction vs with
  | nil =>
    intro ms out res h hms
    cases h
    exact hms
  | cons v vs ih =>
    intro ms out res h hms
    unfold minosLoop at h
    by_cases hv : v ∈ fixedList
    · rw [if_pos hv] at h
      by_cases hex : explicit = true
      · rw [if_pos hex] at h
        cases h
        exact hms
      · rw [if_neg hex] at h
        exact ih ms out res h hms
    · rw [if_neg hv] at h
      cases heng : engine v with
      | exn =>
        rw [heng] at h
        cases h
        exact hms
      | ok r =>
        rw [heng] at h
        refine ih _ out res h ?_
        intro r2
        rw [setAssoc_mem_ne ms v r f r2 (fun heq => hv (heq ▸ hf))]
        exact hms r2

theorem minosLoop_keys_nodup (engine : String → EngineReply)
    (fixedList : List String) (explicit : Bool) :
    ∀ (vs : List String) (ms : List (String × MinosRec)) out res,
      minosLoop engine fixedList explicit vs ms = (out, res) →
      (ms.map Prod.fst).Nodup → (res.map Prod.fst).Nodup := by
  intro vs
  induction vs with
  | nil =>
    intro ms out res h hms
    cases h
    exact hms
  | cons v vs ih =>
    intro ms out res h hms
    unfold minosLoop at h
    by_cases hv : v ∈ fixedList
    · rw [if_pos hv] at h
      by_cases hex : explicit = true
      · rw [if_pos hex] at h
        cases h
        exact hms
      · rw [if_neg hex] at h
        exact ih ms out res h hms
    · rw [if_neg hv] at h
      cases heng : engine v with
      | exn =>
        rw [heng] at h
        cases h
        exact hms
      | ok r =>
        rw [heng] at h
        exact ih _ out res h (setAssoc_keys_nodup ms v r hms)

theorem minosLoop_not_fixedWarn (engine : String → EngineReply)
    (fixedList : List String) :
    ∀ (vs : List String) (ms : List (String × MinosRec)),
      (minosLoop engine fixedList false vs ms).1 ≠ some .fixedWarnNone := by
  intro vs
  induction vs with
  | nil => intro ms; simp [minosLoop]
  | cons v vs ih =>
    intro ms
    unfold minosLoop
    by_cases hv : v ∈ fixedList
    · rw [if_pos hv]
      simp only [Bool.false_eq_true, if_false]
      exact ih ms
    · rw [if_neg hv]
      cases engine v with
      | exn => simp
      | ok r => exact ih _

theorem minosLoop_not_ok (engine : String → EngineReply)
    (fixedList : List String) (explicit : Bool) :
    ∀ (vs : List String) (ms : List (String × MinosRec)) res2,
      (minosLoop engine fixedList explicit vs ms).1 ≠ some (.ok res2) := by
  intro vs
  induction vs with
  | nil => intro ms res2; simp [minosLoop]
  | cons v vs ih =>
    intro ms res2
    unfold minosLoop
    by_cases hv : v ∈ fixedList
    · rw [if_pos hv]
      by_cases hex : explicit = true
      · rw [if_pos hex]; simp
      · rw [if_neg hex]; exact ih ms res2
    · rw [if_neg hv]
      cases engine v with
      | exn => simp
      | ok r => exact ih _ res2

theorem minos_none_reduction (s : Session) (engine : String → EngineReply)
    (sigma : ℚ) (hf : s.hasFcn = true) (hm : s.hasMin = true)
    (hvld : s.minValid = true) :
    minos s engine none sigma =
      (match minosLoop engine (fixedParams s) false s.parameters
          s.merrorsStruct with
       | (some exit, ms) =>
         (exit, { s with up := s.up * sigma * sigma, merrorsStruct := ms })
       | (none, ms) =>
         (.ok ms, { s with
            up := s.up
            merrorsStruct := ms
            merrors := refreshMErrors ms })) := by
  unfold minos
  rw [if_neg (by simp [hf, hm]), if_neg (by simp [hvld])]
  rfl

theorem minos_some_reduction (s : Session) (engine : String → EngineReply)
    (v : String) (sigma : ℚ) (hf : s.hasFcn = true) (hm : s.hasMin = true)
    (hvld : s.minValid = true) (hvp : v ∈ s.parameters) :
    minos s engine (some v) sigma =
      (match minosLoop engine (fixedParams s) true [v] s.merrorsStruct with
       | (some exit, ms) =>
         (exit, { s with up := s.up * sigma * sigma, merrorsStruct := ms })
       | (none, ms) =>
         (.ok ms, { s with
            up := s.up
            merrorsStruct := ms
            merrors := refreshMErrors ms })) := by
  unfold minos
  rw [if_neg (by simp [hf, hm]), if_neg (by simp [hvld])]
  show (if v ∉ s.parameters then _ else _) = _
  rw [if_neg (by simpa using hvp)]
  rfl

theorem minos_ok_inversion (s : Session) (engine : String → EngineReply)
    (var : Option String) (sigma : ℚ) (res : List (String × MinosRec))
    (s2 : Session) (h : minos s engine var sigma = (.ok res, s2)) :
    s2.merrors = refreshMErrors res ∧ s2.merrorsStruct = res ∧
    ∃ varlist explicit,
      minosLoop engine (fixedParams s) explicit varlist s.merrorsStruct =
        (none, res) ∧
      (var = none → varlist = s.parameters ∧ explicit = false) := by
  by_cases hfm : s.hasFcn = true ∧ s.hasMin = true
  · by_cases hvld : s.minValid = true
    · cases var with
      | none =>
        rw [minos_none_reduction s engine sigma hfm.1 hfm.2 hvld] at h
        cases hloop : minosLoop engine (fixedParams s) false s.parameters
            s.merrorsStruct with
        | mk out ms =>
          rw [hloop] at h
          cases out with
          | some exit =>
            exfalso
            apply minosLoop_not_ok engine (fixedParams s) false s.parameters
              s.merrorsStruct res
            rw [hloop]
            show some exit = some (.ok res)
            have h1 : exit = .ok res := congrArg Prod.fst h
            rw [h1]
          | none =>
            have h1 : MinosExit.ok ms = .ok res := congrArg Prod.fst h
            injection h1 with h1
            subst h1
            have hs2 : s2 = { s with
                up := s.up
                merrorsStruct := ms
                merrors := refreshMErrors ms } := (congrArg Prod.snd h).symm
            subst hs2
            exact ⟨rfl, rfl, s.parameters, false, hloop, fun _ => ⟨rfl, rfl⟩⟩
      | some v =>
        by_cases hvp : v ∈ s.parameters
        · rw [minos_some_reduction s engine v sigma hfm.1 hfm.2 hvld hvp] at h
          cases hloop : minosLoop engine (fixedParams s) true [v]
              s.merrorsStruct with
          | mk out ms =>
            rw [hloop] at h
            cases out with
            | some exit =>
              exfalso
              apply minosLoop_not_ok engine (fixedParams s) true [v]
                s.merrorsStruct res
              rw [hloop]
              show some exit = some (.ok res)
              have h1 : exit = .ok res := congrArg Prod.fst h
              rw [h1]
            | none =>
              have h1 : MinosExit.ok ms = .ok res := congrArg Prod.fst h
              injection h1 with h1
              subst h1
              have hs2 : s2 = { s with
                  up := s.up
                  merrorsStruct := ms
                  merrors := refreshMErrors ms } := (congrArg Prod.snd h).symm
              subst hs2
              exact ⟨rfl, rfl, [v], true, hloop,
                fun hcontra => absurd hcontra (by simp)⟩
        · have hred : minos s engine (some v) sigma =
              (.errUnknownParam v, { s with up := s.up * sigma * sigma }) := by
            unfold minos
            rw [if_neg (by simp [hfm.1, hfm.2]), if_neg (by simp [hvld])]
            show (if v ∉ s.parameters then _ else _) = _
            rw [if_pos hvp]
          rw [hred] at h
          simp at h
    · have hred : minos s engine var sigma =
          (.errInvalidMinimum, { s with up := s.up * sigma * sigma }) := by
        unfold minos
        rw [if_neg (by simp [hfm.1, hfm.2]), if_pos (by simpa using hvld)]
      rw [hred] at h
      simp at h
  · have hred : minos s engine var sigma = (.errNoMinimum, s) := by
      unfold minos
      rw [if_pos (by simpa using hfm)]
    rw [hred] at h
    simp at h

theorem minos_fixedWarn_inversion (s : Session) (engine : String → EngineReply)
    (var : Option String) (sigma : ℚ) (s2 : Session)
    (h : minos s engine var sigma = (.fixedWarnNone, s2)) :
    s2.merrors = s.merrors ∧ s2.merrorsStruct = s.merrorsStruct := by
  by_cases hfm : s.hasFcn = true ∧ s.hasMin = true
  · by_cases hvld : s.minValid = true
    · cases var with
      | none =>
        rw [minos_none_reduction s engine sigma hfm.1 hfm.2 hvld] at h
        cases hloop : minosLoop engine (fixedParams s) false s.parameters
            s.merrorsStruct with
        | mk out ms =>
          rw [hloop] at h
          cases out with
          | some exit =>
            exfalso
            apply minosLoop_not_fixedWarn engine (fixedParams s) s.parameters
              s.merrorsStruct
            rw [hloop]
            show some exit = some .fixedWarnNone
            have h1 : exit = .fixedWarnNone := congrArg Prod.fst h
            rw [h1]
          | none =>
            have h1 : MinosExit.ok ms = .fixedWarnNone := congrArg Prod.fst h
            cases h1
      | some v =>
        by_cases hvp : v ∈ s.parameters
        · rw [minos_some_reduction s engine v sigma hfm.1 hfm.2 hvld hvp] at h
          unfold minosLoop at h
          by_cases hvf : v ∈ fixedParams s
          · rw [if_pos hvf, if_pos rfl] at h
            have hs2 : s2 = { s with
                up := s.up * sigma * sigma
                merrorsStruct := s.merrorsStruct } := (congrArg Prod.snd h).symm
            subst hs2
            exact ⟨rfl, rfl⟩
          · rw [if_neg hvf] at h
            cases heng : engine v with
            | exn =>
              rw [heng] at h
              have h1 : MinosExit.objectiveRaised v = .fixedWarnNone :=
                congrArg Prod.fst h
              cases h1
            | ok r =>
              rw [heng] at h
              have h1 : MinosExit.ok (setAssoc s.merrorsStruct v r) =
                  .fixedWarnNone := congrArg Prod.fst h
              cases h1
        · have hred : minos s engine (some v) sigma =
              (.errUnknownParam v, { s with up := s.up * sigma * sigma }) := by
            unfold minos
            rw [if_neg (by simp [hfm.1, hfm.2]), if_neg (by simp [hvld])]
            show (if v ∉ s.parameters then _ else _) = _
            rw [if_pos hvp]
          rw [hred] at h
          simp at h
    · have hred : minos s engine var sigma =
          (.errInvalidMinimum, { s with up := s.up * sigma * sigma }) := by
        unfold minos
        rw [if_neg (by simp [hfm.1, hfm.2]), if_pos (by simpa using hvld)]
      rw [hred] at h
      simp at h
  · have hred : minos s engine var sigma = (.errNoMinimum, s) := by
      unfold minos
      rw [if_pos (by simpa using hfm)]
    rw [hred] at h
    simp at h

/-! ## Errordef rescale-and-restore on failure paths (C1) -/

/-- C1 is violated by the code: `minos` multiplies the adapter error
definition by `sigma^2` before its validity and fixed-parameter checks
and restores it only on the successful return path, so the explicit
request of the fixed parameter `x` with `sigma = 2` returns `None`
leaving `errordef` at 4 instead of the pre-call value 1; likewise
`mncontour` leaves the rescaled value behind when the objective raises
inside the engine contour tracer. -/
theorem C1_errordef_leak :
    ((minos leakSession okEngine (some "x") 2).1 = .fixedWarnNone ∧
     (minos leakSession okEngine (some "x") 2).2.up = 4 ∧
     leakSession.up = 1) ∧
    ((mncontour leakVarySession .exn "a" "b" 2).1 = .objectiveRaised ∧
     (mncontour leakVarySession .exn "a" "b" 2).2.up = 4 ∧
     leakVarySession.up = 1) := by
  constructor
  · rw [minos_explicit_fixed leakSession okEngine "x" 2 rfl rfl rfl
      (by decide) rfl]
    refine ⟨rfl, ?_, rfl⟩
    show leakSession.up * 2 * 2 = 4
    norm_num [leakSession]
  · have hred : mncontour leakVarySession .exn "a" "b" 2 =
        (.objectiveRaised,
         { leakVarySession with up := leakVarySession.up * 2 * 2 }) := by
      unfold mncontour
      rw [if_neg (by simp [leakVarySession]), if_neg (by decide),
        if_neg (by decide)]
    rw [hred]
    refine ⟨rfl, ?_, rfl⟩
    show leakVarySession.up * 2 * 2 = 4
    norm_num [leakVarySession]

/-! ## minos parameter handling (C4) -/

/-- C4: under a valid minimum, `minos` on a name outside the registry
exits with the unknown-parameter error; `minos` explicitly requested
on a fixed parameter warns and returns no result; and a scan over all
parameters silently omits every fixed parameter from the returned
result mapping. -/
theorem C4_minos_parameter_handling (s : Session) (engine : String → EngineReply)
    (v : String) (sigma : ℚ)
    (hf : s.hasFcn = true) (hm : s.hasMin = true) (hvld : s.minValid = true) :
    (v ∉ s.parameters → (minos s engine (some v) sigma).1 = .errUnknownParam v) ∧
    (v ∈ s.parameters → s.initialFix v = true →
      (minos s engine (some v) sigma).1 = .fixedWarnNone) ∧
    (∀ f, f ∈ s.parameters → s.initialFix f = true →
      (∀ r, (f, r) ∉ s.merrorsStruct) →
      ∀ res, (minos s engine none sigma).1 = .ok res → ∀ r, (f, r) ∉ res) := by
  refine ⟨fun hp => ?_, fun hp hfix => ?_, fun f hp hfix hnone res hok r => ?_⟩
  · rw [minos_unknown_param s engine v sigma hf hm hvld hp]
  · rw [minos_explicit_fixed s engine v sigma hf hm hvld hp hfix]
  · have hfull : minos s engine none sigma =
        (.ok res, (minos s engine none sigma).2) := by
      rw [← hok]
    obtain ⟨_, _, varlist, explicit, hloop, _⟩ :=
      minos_ok_inversion s engine none sigma res _ hfull
    exact minosLoop_no_fixed_key engine (fixedParams s) explicit f
      (List.mem_filter.mpr ⟨hp, hfix⟩) varlist s.merrorsStruct none res hloop
      hnone r

theorem C4_witness :
    (minos twoParamSession minosOkEngine (some "zz") 1).1 =
      .errUnknownParam "zz" ∧
    (minos twoParamSession minosOkEngine (some "x") 1).1 = .fixedWarnNone ∧
    (∀ r, ("x", r) ∉ [("y", (⟨-2, 2, true⟩ : MinosRec))]) := by
  have h := C4_minos_parameter_handling twoParamSession minosOkEngine "x" 1
    rfl rfl rfl
  have h2 := C4_minos_parameter_handling twoParamSession minosOkEngine "zz" 1
    rfl rfl rfl
  refine ⟨h2.1 (by decide), h.2.1 (by decide) rfl, ?_⟩
  exact h.2.2 "x" (by decide) rfl (by intro r hr; cases hr)
    [("y", ⟨-2, 2, true⟩)] (by decide)

/-! ## Non-fatal diagnostics (C9) -/

theorem hesse_completes (s : Session) (cov : Bool) (hm : s.hasMin = true) :
    hesse s cov = (.done (!cov), refreshInternalState { s with hasCov := cov }) := by
  unfold hesse
  rw [if_neg (by simp [hm])]

theorem checkExtraArgs_unknown (ps kwdKeys : List String) (k : String)
    (hk : k ∈ kwdKeys) (hbad : validKey ps k = false) :
    ∃ msg, checkExtraArgs ps kwdKeys = .error msg := by
  unfold checkExtraArgs
  cases hfind : kwdKeys.find? (fun k2 => !validKey ps k2) with
  | some k2 => exact ⟨_, rfl⟩
  | none =>
    rw [List.find?_eq_none] at hfind
    have := hfind k hk
    simp [hbad] at this

/-- C9 as stated is false on the unknown-keyword path: the construction
does not report the unknown keyword and continue, it aborts with a
`RuntimeError`.  Concretely, for parameters `x, y` the keyword list
containing `typo_z` makes `_check_extra_args` raise. -/
theorem C9_counterexample :
    checkExtraArgs ["x", "y"] ["error_x", "typo_z"] =
      .error "Cannot understand keyword typo_z. May be a typo?" := rfl

/-- C9, amended: the HESSE-failed warning and the
fixed-parameter-requested-for-MINOS warning are non-fatal — `hesse`
completes (with the covariance marked missing) and `minos` completes
returning no result — but an unknown keyword is fatal: construction
fails with a `RuntimeError` naming the keyword instead of completing. -/
theorem C9_diagnostics (s : Session) (engine : String → EngineReply)
    (v : String) (sigma : ℚ) (ps kwdKeys : List String) (k : String)
    (hm : s.hasMin = true) (hf : s.hasFcn = true) (hvld : s.minValid = true)
    (hp : v ∈ s.parameters) (hfix : s.initialFix v = true)
    (hk : k ∈ kwdKeys) (hbad : validKey ps k = false) :
    (∃ s2, hesse s false = (.done true, s2)) ∧
    ((minos s engine (some v) sigma).1 = .fixedWarnNone) ∧
    (∃ msg, checkExtraArgs ps kwdKeys = .error msg) := by
  refine ⟨⟨refreshInternalState { s with hasCov := false }, ?_⟩, ?_, ?_⟩
  · exact hesse_completes s false hm
  · rw [minos_explicit_fixed s engine v sigma hf hm hvld hp hfix]
  · exact checkExtraArgs_unknown ps kwdKeys k hk hbad

theorem C9_witness :
    (∃ s2, hesse twoParamSession false = (.done true, s2)) ∧
    ((minos twoParamSession minosOkEngine (some "x") 1).1 = .fixedWarnNone) ∧
    (∃ msg, checkExtraArgs ["x", "y"] ["fix_x", "bogus"] = .error msg) :=
  C9_diagnostics twoParamSession minosOkEngine "x" 1 ["x", "y"]
    ["fix_x", "bogus"] "bogus" rfl rfl rfl (by decide) rfl (by decide) rfl

/-! ## Dual-key MINOS view consistency (C10) -/

theorem find_key_of_nodup {α : Type} (ms : List (String × α)) (k : String)
    (x : α) (hnd : (ms.map Prod.fst).Nodup) (hm : (k, x) ∈ ms) :
    ms.find? (fun kv => kv.1 == k) = some (k, x) := by
  induction ms with
  | nil => cases hm
  | cons kv tail ih =>
    obtain ⟨k1, x1⟩ := kv
    rw [List.map_cons, List.nodup_cons] at hnd
    by_cases hk : k1 = k
    · subst hk
      have hx : x = x1 := by
        cases hm with
        | head => rfl
        | tail _ h =>
          exact absurd (List.mem_map.mpr ⟨(k1, x), h, rfl⟩) hnd.1
      subst hx
      simp [List.find?]
    · have hm2 : (k, x) ∈ tail := by
        cases hm with
        | head => exact absurd rfl hk
        | tail _ h => exact h
      have hke : (((k1, x1) : String × α).1 == k) = false := by
        simpa using hk
      simp only [List.find?, hke]
      exact ih hnd.2 hm2

theorem refreshMErrors_consistent (ms : List (String × MinosRec))
    (hnd : (ms.map Prod.fst).Nodup) :
    dualKeyConsistent (refreshMErrors ms) ms := by
  constructor
  · intro k r hm
    have hup : (ms.map (fun kv => ((kv.1, true), kv.2.upper))).find?
        (fun kv => kv.1.1 == k && kv.1.2 == true) = some ((k, true), r.upper) := by
      rw [List.find?_map]
      have hpred : ((fun kv : (String × Bool) × ℚ =>
          kv.1.1 == k && kv.1.2 == true) ∘
          (fun kv : String × MinosRec => ((kv.1, true), kv.2.upper))) =
          fun kv : String × MinosRec => kv.1 == k := by
        funext kv
        simp
      rw [hpred, find_key_of_nodup ms k r hnd hm]
      rfl
    have hupnone : (ms.map (fun kv => ((kv.1, true), kv.2.upper))).find?
        (fun kv => kv.1.1 == k && kv.1.2 == false) = none := by
      rw [List.find?_eq_none]
      intro x hx
      obtain ⟨kv, _, rfl⟩ := List.mem_map.mp hx
      simp
    have hlow : (ms.map (fun kv => ((kv.1, false), kv.2.lower))).find?
        (fun kv => kv.1.1 == k && kv.1.2 == false) = some ((k, false), r.lower) := by
      rw [List.find?_map]
      have hpred : ((fun kv : (String × Bool) × ℚ =>
          kv.1.1 == k && kv.1.2 == false) ∘
          (fun kv : String × MinosRec => ((kv.1, false), kv.2.lower))) =
          fun kv : String × MinosRec => kv.1 == k := by
        funext kv
        simp
      rw [hpred, find_key_of_nodup ms k r hnd hm]
      rfl
    constructor
    · unfold lookupME refreshMErrors
      rw [List.append_eq, List.find?_append, hup]
      rfl
    · unfold lookupME refreshMErrors
      rw [List.append_eq, List.find?_append, hupnone, hlow]
      rfl
  · intro k b q hmem
    unfold refreshMErrors at hmem
    rw [List.append_eq] at hmem
    rcases List.mem_append.mp hmem with h1 | h1
    · obtain ⟨kv, hkv, heq⟩ := List.mem_map.mp h1
      refine ⟨kv.2, ?_⟩
      have hk : kv.1 = k := congrArg (fun z : (String × Bool) × ℚ => z.1.1) heq
      rw [← hk]
      exact hkv
    · obtain ⟨kv, hkv, heq⟩ := List.mem_map.mp h1
      refine ⟨kv.2, ?_⟩
      have hk : kv.1 = k := congrArg (fun z : (String × Bool) × ℚ => z.1.1) heq
      rw [← hk]
      exact hkv

/-- C10: the legacy dual-key MINOS view stays consistent with the
per-parameter records on every completed operation:
`refreshInternalState` — run by `migrad` and `hesse` at the end of
every completing call and by `minos` on its successful path — rebuilds
`merrors` as exactly the dual-key projection of `merrors_struct`
(upper offset under `(k, 1.0)`, lower offset under `(k, -1.0)`, no
other keys); the one completing `minos` path that skips the refresh
(returning `None` for an explicitly requested fixed parameter) changes
neither dictionary. -/
theorem C10_dual_key_view (s : Session)
    (hnd : (s.merrorsStruct.map Prod.fst).Nodup) :
    dualKeyConsistent (refreshInternalState s).merrors
      (refreshInternalState s).merrorsStruct ∧
    (∀ cov w s2, hesse s cov = (.done w, s2) →
      dualKeyConsistent s2.merrors s2.merrorsStruct) ∧
    (∀ engine var sigma res s2, minos s engine var sigma = (.ok res, s2) →
      dualKeyConsistent s2.merrors s2.merrorsStruct) ∧
    (∀ engine var sigma s2, minos s engine var sigma = (.fixedWarnNone, s2) →
      s2.merrors = s.merrors ∧ s2.merrorsStruct = s.merrorsStruct) := by
  refine ⟨?_, fun cov w s2 h => ?_, fun engine var sigma res s2 h => ?_,
    fun engine var sigma s2 h =>
      minos_fixedWarn_inversion s engine var sigma s2 h⟩
  · exact refreshMErrors_consistent s.merrorsStruct hnd
  · by_cases hm : s.hasMin = true
    · rw [hesse_completes s cov hm] at h
      have hs2 : s2 = refreshInternalState { s with hasCov := cov } :=
        (congrArg Prod.snd h).symm
      subst hs2
      exact refreshMErrors_consistent s.merrorsStruct hnd
    · have hred : hesse s cov = (.errNoMinimum, s) := by
        unfold hesse
        rw [if_pos (by simpa using hm)]
      rw [hred] at h
      simp at h
  · obtain ⟨hme, hms, varlist, explicit, hloop, _⟩ :=
      minos_ok_inversion s engine var sigma res s2 h
    rw [hme, hms]
    exact refreshMErrors_consistent res
      (minosLoop_keys_nodup engine (fixedParams s) explicit varlist
        s.merrorsStruct none res hloop hnd)

theorem C10_witness :
    dualKeyConsistent (refreshInternalState merrSession).merrors
      (refreshInternalState merrSession).merrorsStruct :=
  (C10_dual_key_view merrSession (by decide)).1

/-! ## migrad call budget and split loop (C6) -/

theorem migradGo_spec (valid : ℕ → Bool) (ncall nround : ℤ) :
    ∀ (fuel k : ℕ), ncall ≤ ((k : ℤ) + (fuel : ℤ) + 1) * nround →
      k + 1 ≤ migradGo valid ncall nround fuel k ∧
      (valid (migradGo valid ncall nround fuel k - 1) = true ∨
        ncall ≤ (migradGo valid ncall nround fuel k : ℤ) * nround) ∧
      (∀ j, k ≤ j → j + 1 < migradGo valid ncall nround fuel k →
        valid j = false ∧ ((j : ℤ) + 1) * nround < ncall) := by
  intro fuel
  induction fuel with
  | zero =>
    intro k hbound
    have hred : migradGo valid ncall nround 0 k = k + 1 := rfl
    rw [hred]
    refine ⟨le_refl _, Or.inr ?_, fun j hj hlt => absurd hlt (by omega)⟩
    push_cast
    push_cast at hbound
    linarith
  | succ fuel ih =>
    intro k hbound
    by_cases hc : (valid k || decide (ncall ≤ ((k : ℤ) + 1) * nround)) = true
    · have hred : migradGo valid ncall nround (fuel + 1) k = k + 1 := by
        unfold migradGo
        rw [if_pos hc]
      rw [hred]
      rcases Bool.or_eq_true _ _ |>.mp hc with hv | hd
      · refine ⟨le_refl _, Or.inl ?_, fun j hj hlt => absurd hlt (by omega)⟩
        simpa using hv
      · refine ⟨le_refl _, Or.inr ?_, fun j hj hlt => absurd hlt (by omega)⟩
        have hle := of_decide_eq_true hd
        push_cast
        linarith
    · rw [Bool.or_eq_true, not_or] at hc
      obtain ⟨hv, hd⟩ := hc
      have hv2 : valid k = false := by simpa using hv
      have hd2 : ((k : ℤ) + 1) * nround < ncall := by
        rcases lt_or_ge (((k : ℤ) + 1) * nround) ncall with h | h
        · exact h
        · exact absurd (decide_eq_true (by linarith)) hd
      have hred : migradGo valid ncall nround (fuel + 1) k =
          migradGo valid ncall nround fuel (k + 1) := by
        show (if (valid k || decide (ncall ≤ ((k : ℤ) + 1) * nround)) = true
            then k + 1 else migradGo valid ncall nround fuel (k + 1)) =
          migradGo valid ncall nround fuel (k + 1)
        rw [if_neg (by simp [hv2, hd])]
      have hbound2 : ncall ≤ (((k + 1 : ℕ) : ℤ) + (fuel : ℤ) + 1) * nround := by
        have hcast : (((k + 1 : ℕ) : ℤ) + (fuel : ℤ) + 1) =
            ((k : ℤ) + ((fuel + 1 : ℕ) : ℤ) + 1) := by
          push_cast
          ring
        rw [hcast]
        exact hbound
      obtain ⟨h1, h2, h3⟩ := ih (k + 1) hbound2
      rw [hred]
      refine ⟨by omega, h2, fun j hj hlt => ?_⟩
      rcases eq_or_lt_of_le hj with heq | hlt2
      · subst heq
        exact ⟨hv2, hd2⟩
      · exact h3 j (by omega) hlt

/-- C6: the split loop of `migrad`: a run with a per-split budget
`round(ncall/nsplit)` that is not positive is rejected before any
sub-run (the `assert ncall_round > 0`, the spec's
`InvalidCallBudgetError`); otherwise at least one sub-run executes,
and after each sub-run the loop executes another sub-run exactly when
the current minimum is still invalid and the calls consumed so far
stay below `ncall`. -/
theorem C6_migrad_budget_and_loop (valid : ℕ → Bool) (ncall nsplit : ℤ) :
    (migradBudget ncall nsplit ≤ 0 →
      migrad valid ncall nsplit = .budgetRejected) ∧
    (0 < migradBudget ncall nsplit →
      ∃ n, migrad valid ncall nsplit = .finished n ∧ 1 ≤ n ∧
        ∀ k, k + 1 ≤ n →
          (k + 1 < n ↔
            (valid k = false ∧
             ((k : ℤ) + 1) * migradBudget ncall nsplit < ncall))) := by
  constructor
  · intro hle
    unfold migrad
    rw [if_pos hle]
  · intro hpos
    have hone : (1 : ℤ) ≤ migradBudget ncall nsplit := hpos
    have hb0 : ncall ≤ (((0 : ℕ) : ℤ) + ((ncall.toNat : ℕ) : ℤ) + 1) *
        migradBudget ncall nsplit := by
      have hN : ncall ≤ (ncall.toNat : ℤ) := Int.self_le_toNat ncall
      have hN0 : (0 : ℤ) ≤ (ncall.toNat : ℤ) := Int.natCast_nonneg _
      have key : ((ncall.toNat : ℤ) + 1) * 1 ≤
          ((ncall.toNat : ℤ) + 1) * migradBudget ncall nsplit :=
        mul_le_mul_of_nonneg_left hone (by linarith)
      push_cast
      linarith
    obtain ⟨h1, h2, h3⟩ := migradGo_spec valid ncall (migradBudget ncall nsplit)
      ncall.toNat 0 hb0
    refine ⟨migradGo valid ncall (migradBudget ncall nsplit) ncall.toNat 0,
      ?_, h1, fun k hk => ⟨fun hlt => h3 k (Nat.zero_le k) hlt, fun hcond => ?_⟩⟩
    · unfold migrad
      rw [if_neg (by omega)]
    · rcases lt_or_eq_of_le hk with h | h
      · exact h
      · exfalso
        rw [← h] at h2
        rcases h2 with hvv | hnc
        · have : valid k = true := by simpa using hvv
          rw [hcond.1] at this
          cases this
        · have hlt2 := hcond.2
          push_cast at hnc
          linarith

theorem C6_witness :
    (0 < migradBudget 10 4 ∧
      ∃ n, migrad (fun k => decide (2 ≤ k)) 10 4 = .finished n ∧ 1 ≤ n ∧
        ∀ k, k + 1 ≤ n →
          (k + 1 < n ↔
            (decide (2 ≤ k) = false ∧
             ((k : ℤ) + 1) * migradBudget 10 4 < 10))) ∧
    (migradBudget 1 4 ≤ 0 ∧
      migrad (fun k => decide (2 ≤ k)) 1 4 = .budgetRejected) := by
  have h104 : migradBudget 10 4 = 2 := by norm_num [migradBudget, pythonRound]
  have h14 : migradBudget 1 4 = 0 := by norm_num [migradBudget, pythonRound]
  refine ⟨⟨by rw [h104]; norm_num,
    (C6_migrad_budget_and_loop (fun k => decide (2 ≤ k)) 10 4).2
      (by rw [h104]; norm_num)⟩,
    ⟨by rw [h14], (C6_migrad_budget_and_loop (fun k => decide (2 ≤ k)) 1 4).1
      (by rw [h14])⟩⟩

/-! ## profile scan (C5) -/

theorem linspace_length (lo hi : ℚ) (bins : ℕ) :
    (linspace lo hi bins).length = bins := by
  unfold linspace
  by_cases h : bins = 1
  · rw [if_pos h, h]
    rfl
  · rw [if_neg h]
    simp

theorem linspace_getD (lo hi : ℚ) (bins i : ℕ) (hb : 2 ≤ bins)
    (hib : i < bins) :
    (linspace lo hi bins).getD i 0 = lo + (hi - lo) * i / ((bins : ℚ) - 1) := by
  unfold linspace
  rw [if_neg (by omega), List.getD_eq_getElem?_getD, List.getElem?_map,
    List.getElem?_range hib]
  rfl

theorem getD_eq_getElem_of_lt (l : List ℚ) (i : ℕ) (h : i < l.length) :
    l.getD i 0 = l[i] := by
  rw [List.getD_eq_getElem?_getD, List.getElem?_eq_getElem h]
  rfl

/-- C5, amended: with an explicit bound pair, `profile` returns exactly
`bins` evenly spaced sample points across [lo, hi] (endpoints included,
constant spacing (hi-lo)/(bins-1)) paired with `bins` objective values,
each being the raw user callable evaluated with only the scanned
position of `self.args` replaced (all other parameters held at their
last best-fit values); no sub-minimization runs, the user callable is
invoked exactly `bins` times, and the adapter-tracked call count of the
session is unchanged. -/
theorem C5_profile_scan (s : ProfSession) (vname : String) (bins : ℕ)
    (lo hi : ℚ) (hb : 2 ≤ bins) :
    ((profile s vname bins lo hi).1.1.length = bins ∧
     (profile s vname bins lo hi).1.2.length = bins) ∧
    ((profile s vname bins lo hi).1.1.getD 0 0 = lo ∧
     (profile s vname bins lo hi).1.1.getD (bins - 1) 0 = hi) ∧
    (∀ i, i + 1 < bins →
      (profile s vname bins lo hi).1.1.getD (i + 1) 0 -
        (profile s vname bins lo hi).1.1.getD i 0 =
        (hi - lo) / ((bins : ℚ) - 1)) ∧
    (∀ i, i < bins →
      (profile s vname bins lo hi).1.2.getD i 0 =
        s.fcn (s.args.set (s.var2pos vname)
          ((profile s vname bins lo hi).1.1.getD i 0))) ∧
    (∀ (x : ℚ) (j : ℕ), j ≠ s.var2pos vname →
      (s.args.set (s.var2pos vname) x).getD j 0 = s.args.getD j 0) ∧
    (profile s vname bins lo hi).2.2 = bins ∧
    (profile s vname bins lo hi).2.1.adapterCalls = s.adapterCalls := by
  have hd : ((bins : ℚ) - 1) ≠ 0 := by
    have h2 : (2 : ℚ) ≤ (bins : ℚ) := by exact_mod_cast hb
    linarith
  refine ⟨⟨?_, ?_⟩, ⟨?_, ?_⟩, fun i hi2 => ?_, fun i hi2 => ?_,
    fun x j hj => ?_, ?_, rfl⟩
  · exact linspace_length lo hi bins
  · show ((linspace lo hi bins).map _).length = bins
    rw [List.length_map]
    exact linspace_length lo hi bins
  · rw [show (profile s vname bins lo hi).1.1 = linspace lo hi bins from rfl,
      linspace_getD lo hi bins 0 hb (by omega)]
    simp
  · rw [show (profile s vname bins lo hi).1.1 = linspace lo hi bins from rfl,
      linspace_getD lo hi bins (bins - 1) hb (by omega),
      Nat.cast_sub (by omega), Nat.cast_one, mul_div_assoc, div_self hd,
      mul_one]
    ring
  · rw [show (profile s vname bins lo hi).1.1 = linspace lo hi bins from rfl,
      linspace_getD lo hi bins (i + 1) hb hi2,
      linspace_getD lo hi bins i hb (by omega)]
    push_cast
    field_simp
    ring
  · have hlen : i < (linspace lo hi bins).length := by
      rw [linspace_length]
      exact hi2
    show ((linspace lo hi bins).map
      (fun x => s.fcn (s.args.set (s.var2pos vname) x))).getD i 0 = _
    rw [List.getD_eq_getElem?_getD, List.getElem?_map,
      List.getElem?_eq_getElem hlen]
    rw [show (profile s vname bins lo hi).1.1 = linspace lo hi bins from rfl,
      getD_eq_getElem_of_lt (linspace lo hi bins) i hlen]
    rfl
  · rw [List.getD_eq_getElem?_getD, List.getD_eq_getElem?_getD,
      List.getElem?_set_ne (Ne.symm hj)]
  · show ((linspace lo hi bins).map _).length = bins
    rw [List.length_map]
    exact linspace_length lo hi bins

/-- C5 as stated is false: `profile` evaluates the raw user callable
`self.fcn(*arg)` directly, bypassing the counted FCN adapter, so the
session-tracked objective call count does not increase by `bins` —
it does not change at all (here it stays 7 while the user callable is
invoked 5 times). -/
theorem C5_counterexample :
    (profile profSample "a" 5 0 4).2.1.adapterCalls = 7 ∧
    profSample.adapterCalls = 7 ∧
    (profile profSample "a" 5 0 4).2.2 = 5 ∧
    (7 : ℕ) ≠ 7 + 5 := by
  refine ⟨rfl, rfl, rfl, by decide⟩

theorem C5_witness :
    (profile profSample "a" 5 0 4).1.1.length = 5 ∧
    (profile profSample "a" 5 0 4).1.1.getD 0 0 = 0 ∧
    (profile profSample "a" 5 0 4).1.1.getD 4 0 = 4 ∧
    (profile profSample "a" 5 0 4).2.2 = 5 ∧
    (profile profSample "a" 5 0 4).2.1.adapterCalls =
      profSample.adapterCalls := by
  have h := C5_profile_scan profSample "a" 5 0 4 (by norm_num)
  exact ⟨h.1.1, h.2.1.1, h.2.1.2, h.2.2.2.2.2.1, h.2.2.2.2.2.2⟩

/-! ## Covariance and correlation matrix entries (C8) -/

theorem div_sqrt_mul_self (c : ℚ) (hc : 0 < c) :
    c / Rat.sqrt (c * c) = 1 := by
  rw [Rat.sqrt_eq, abs_of_pos hc, div_self (ne_of_gt hc)]

theorem getD_map_of_lt {α β : Type} (l : List α) (f : α → β) (d : β) (i : ℕ)
    (h : i < l.length) : (l.map f).getD i d = f l[i] := by
  rw [List.getD_eq_getElem?_getD, List.getElem?_map, List.getElem?_eq_getElem h]
  rfl

/-- C8: with a valid covariance (positive variance for every varying
parameter), the matrix accessor satisfies: with `skip_fixed=true` every
diagonal correlation entry is exactly 1; with `skip_fixed=false` every
off-diagonal covariance entry involving a fixed parameter is 0, every
diagonal correlation entry is 1, and every off-diagonal correlation
entry involving a fixed parameter is 0. -/
theorem C8_matrix_entries (s : CovState)
    (hpos : ∀ i, i < s.n → s.isFixed i = false → 0 < s.cov i i) :
    (∀ k, k < (matrixInd s true).length →
      ((matrixQ s true true).getD k []).getD k 0 = 1) ∧
    (∀ a b, a < s.n → b < s.n → a ≠ b →
      (s.isFixed a || s.isFixed b) = true →
      ((matrixQ s false false).getD b []).getD a 0 = 0) ∧
    (∀ a, a < s.n → ((matrixQ s true false).getD a []).getD a 0 = 1) ∧
    (∀ a b, a < s.n → b < s.n → a ≠ b →
      (s.isFixed a || s.isFixed b) = true →
      ((matrixQ s true false).getD b []).getD a 0 = 0) := by
  have hlenf : (matrixInd s false).length = s.n := by
    show (List.range s.n).length = s.n
    exact List.length_range s.n
  have hidxf : ∀ (a : ℕ) (ha : a < (matrixInd s false).length),
      (matrixInd s false)[a] = a := fun a ha => List.getElem_range a ha
  refine ⟨fun k hk => ?_, fun a b ha hbn hne hor => ?_, fun a ha => ?_,
    fun a b ha hbn hne hor => ?_⟩
  · unfold matrixQ
    rw [getD_map_of_lt _ _ _ k hk, getD_map_of_lt _ _ _ k hk]
    have hmem : (matrixInd s true)[k] ∈ matrixInd s true :=
      List.getElem_mem hk
    have hmem2 : (matrixInd s true)[k] ∈
        (List.range s.n).filter (fun i => !s.isFixed i) := hmem
    obtain ⟨hrange, hfixb⟩ := List.mem_filter.mp hmem2
    have hin : (matrixInd s true)[k] < s.n := List.mem_range.mp hrange
    have hfix2 : s.isFixed ((matrixInd s true)[k]) = false := by
      simpa using hfixb
    show s.cov ((matrixInd s true)[k]) ((matrixInd s true)[k]) /
      Rat.sqrt (s.cov ((matrixInd s true)[k]) ((matrixInd s true)[k]) *
        s.cov ((matrixInd s true)[k]) ((matrixInd s true)[k])) = 1
    exact div_sqrt_mul_self _ (hpos _ hin hfix2)
  · unfold matrixQ
    rw [getD_map_of_lt _ _ _ b (by omega), getD_map_of_lt _ _ _ a (by omega),
      hidxf a (by omega), hidxf b (by omega)]
    show covEntry s false a b = 0
    show (if (s.isFixed a || s.isFixed b) = true then 0 else s.cov a b) = 0
    rw [if_pos hor]
  · unfold matrixQ
    rw [getD_map_of_lt _ _ _ a (by omega), getD_map_of_lt _ _ _ a (by omega),
      hidxf a (by omega)]
    show corEntry s false a a = 1
    show (if a = a then (1 : ℚ)
      else if (s.isFixed a || s.isFixed a) = true then 0
      else s.cov a a / Rat.sqrt (s.cov a a * s.cov a a)) = 1
    rw [if_pos rfl]
  · unfold matrixQ
    rw [getD_map_of_lt _ _ _ b (by omega), getD_map_of_lt _ _ _ a (by omega),
      hidxf a (by omega), hidxf b (by omega)]
    show corEntry s false a b = 0
    show (if a = b then (1 : ℚ)
      else if (s.isFixed a || s.isFixed b) = true then 0
      else s.cov a b / Rat.sqrt (s.cov a a * s.cov b b)) = 0
    rw [if_neg hne, if_pos hor]

theorem C8_witness :
    ((matrixQ covSample true true).getD 0 []).getD 0 0 = 1 ∧
    ((matrixQ covSample false false).getD 2 []).getD 0 0 = 0 ∧
    ((matrixQ covSample true false).getD 1 []).getD 1 0 = 1 ∧
    ((matrixQ covSample true false).getD 2 []).getD 1 0 = 0 := by
  have h := C8_matrix_entries covSample (by decide)
  exact ⟨h.1 0 (by decide),
    h.2.1 0 2 (by decide) (by decide) (by decide) (by decide),
    h.2.2.1 1 (by decide),
    h.2.2.2 1 2 (by decide) (by decide) (by decide) (by decide)⟩

end IminuitSpec
